import Mathlib

/-!
# Verification of the traybin semantic indexing/search core (`src/indexer.rs`)

This file gives a shallow embedding of the indexing and search subsystem of
the traybin tray application and proves the specification's testable
properties against it.

Modelling conventions:
* Rust `PathBuf` / `&str` paths are Lean `String`s (POSIX-style `/` separators).
* The embedding-vector scalar type is irrelevant to every property proved
  here, so record vectors are parameterized over an arbitrary type `E`
  (the Rust code stores `Vec<f32>` values opaquely).
* I/O oracles (the embedding model, `fs::metadata`, `Path::exists`, the
  store's nearest-neighbour ranking) are passed as explicit functions.
* Fallible Rust functions returning `anyhow::Result` become `Except String`.
-/

namespace Traybin

/-- Rust `PathBuf`, modelled as a string. -/
abbrev FPath := String

/-- `IMAGE_EXTENSIONS` from `indexer.rs`: image file extensions to index. -/
def IMAGE_EXTENSIONS : List String := ["png", "jpg", "jpeg", "gif", "bmp", "webp", "avif"]

/-- `CpuMode` from `indexer.rs`. -/
inductive CpuMode where
  | Normal
  | Fast
deriving DecidableEq, Repr

/-- `CpuMode::batch_size`. -/
def CpuMode.batch_size : CpuMode → Nat
  | .Normal => 8
  | .Fast => 32

/-- `CpuMode::delay_ms`. -/
def CpuMode.delay_ms : CpuMode → Nat
  | .Normal => 25
  | .Fast => 0

/-- The subset of the `AppMessage` enum (`main.rs`) sent by the indexer. -/
inductive AppMessage where
  | ModelDownloadProgress (current total : Nat) (label : String)
  | ModelDownloadCompleted
  | ModelDownloadFailed (msg : String)
  | IndexStarted (total : Nat)
  | IndexProgress (current total : Nat) (file : String)
  | IndexCompleted (count : Nat)
  | IndexFailed (msg : String)
  | SearchResults (paths : List FPath)
deriving DecidableEq, Repr

/-- One persisted row of the `images` table (`IndexerState::create_schema`). -/
structure Record (E : Type) where
  file_path : FPath
  file_size : Nat
  modified_time : Int
  vector : E
deriving DecidableEq, Repr

/-- The column names of the `images` table schema (`IndexerState::create_schema`). -/
def schemaColumns : List String := ["file_path", "file_size", "modified_time", "vector"]

/-- Result of a successful `fs::metadata` call: `len()` and the modified time
in unix seconds, as read by `insert_embeddings`. -/
structure Metadata where
  len : Nat
  modified : Int
deriving DecidableEq, Repr

/-- The `images` table: `none` while the table does not exist, otherwise the
row list in insertion order. -/
abbrev Store (E : Type) := Option (List (Record E))

/-- Equality on `Except` values, used to state concrete results. -/
instance {ε α : Type} [DecidableEq ε] [DecidableEq α] : DecidableEq (Except ε α) := fun x y =>
  match x, y with
  | .error a, .error b =>
    if h : a = b then .isTrue (by rw [h]) else .isFalse (fun hc => h (by injection hc))
  | .error _, .ok _ => .isFalse (fun hc => Except.noConfusion hc)
  | .ok _, .error _ => .isFalse (fun hc => Except.noConfusion hc)
  | .ok a, .ok b =>
    if h : a = b then .isTrue (by rw [h]) else .isFalse (fun hc => h (by injection hc))

/-- Split a character list at every occurrence of `c` (the semantics of
Rust / Lean `splitOn` for a one-character separator, on the char level so
that it evaluates by kernel reduction). -/
def splitOnCharAux (c : Char) : List Char → List Char → List (List Char)
  | [], acc => [acc.reverse]
  | x :: xs, acc =>
    if x = c then acc.reverse :: splitOnCharAux c xs []
    else splitOnCharAux c xs (x :: acc)

/-- Split a character list at every occurrence of `c`. -/
def splitOnChar (c : Char) (l : List Char) : List (List Char) :=
  splitOnCharAux c l []

/-- File name component of a path (Rust `Path::file_name`, `/`-separated). -/
def fileName (p : FPath) : String :=
  match (splitOnChar '/' p.data).getLast? with
  | some n => ⟨n⟩
  | none => p

/-- Rust `Path::extension`: the part of the file name after the last `.`;
`none` when there is no `.`, or when the only `.` is the leading one of a
dotfile such as `.gitignore`. -/
def extension (p : FPath) : Option String :=
  match splitOnChar '.' (fileName p).data with
  | [] => none
  | [_] => none
  | [] :: [_] => none
  | parts => parts.getLast?.map (fun l => (⟨l⟩ : String))

/-- ASCII lower-casing of one character. -/
def asciiLower (ch : Char) : Char :=
  if 'A' ≤ ch && ch ≤ 'Z' then Char.ofNat (ch.toNat + 32) else ch

/-- Rust `str::eq_ignore_ascii_case` (all uses are on ASCII extension names). -/
def eqIgnoreAsciiCase (a b : String) : Bool :=
  a.data.map asciiLower == b.data.map asciiLower

/-- The extension test inside `IndexerState::is_image_file`; the `is_file`
half of that function is captured by the `FsNode.file` constructor below. -/
def isImageExt (p : FPath) : Bool :=
  match extension p with
  | none => false
  | some ext => IMAGE_EXTENSIONS.any (fun e => eqIgnoreAsciiCase e ext)

/-- A snapshot of the directory tree walked by `collect_files_to_index`.
A `dir` with `readable = false` is one whose `fs::read_dir` call fails
(permissions, symlink cycle); its entries are then unobservable. -/
inductive FsNode where
  | file (path : FPath)
  | dir (readable : Bool) (entries : List FsNode)

mutual

/-- The local `visit_dirs` function of `collect_files_to_index`.
`shouldCheck` is `!force_all`; `indexedSet` models the `indexed_files`
hash set (a list used only through membership). A failing `read_dir` is
propagated by `?` in the source, so it is an `Except.error` here. -/
def visit_dirs (shouldCheck : Bool) (indexedSet : List FPath) : FsNode → Except String (List FPath)
  | .file _ => .ok []
  | .dir false _ => .error "read_dir failed"
  | .dir true entries => visitEntries shouldCheck indexedSet entries

/-- The `for entry in fs::read_dir(dir)?` loop body of `visit_dirs`. -/
def visitEntries (shouldCheck : Bool) (indexedSet : List FPath) : List FsNode → Except String (List FPath)
  | [] => .ok []
  | .file p :: rest =>
    match visitEntries shouldCheck indexedSet rest with
    | .error e => .error e
    | .ok tail =>
      .ok ((if isImageExt p && (!shouldCheck || !(indexedSet.contains p)) then [p] else []) ++ tail)
  | .dir b es :: rest =>
    match visit_dirs shouldCheck indexedSet (.dir b es) with
    | .error e => .error e
    | .ok sub =>
      match visitEntries shouldCheck indexedSet rest with
      | .error e => .error e
      | .ok tail => .ok (sub ++ tail)

end

/-- `IndexerState::collect_files_to_index`: walk the corpus root, keeping
qualifying image files, diffing against the indexed set unless `force_all`. -/
def collect_files_to_index (force_all : Bool) (indexedFiles : List FPath) (root : FsNode) :
    Except String (List FPath) :=
  visit_dirs (!force_all) indexedFiles root

/-- `IndexerState::load_indexed_files`: the set of `file_path` values of all
rows, empty when the `images` table does not exist. -/
def load_indexed_files {E : Type} (store : Store E) : List FPath :=
  match store with
  | none => []
  | some rows => rows.map Record.file_path

/-- The `IndexerState` fields that the batch pipeline mutates: the connected
store (`db` plus the `images` table contents) and the `indexed_files` set
(a list used only through membership). -/
structure PipeState (E : Type) where
  store : Store E
  indexed_files : List FPath
deriving DecidableEq, Repr

/-- The row built for one `(path, embedding)` pair by `insert_embeddings`:
`none` when the `fs::metadata(path)` call fails, in which case the source
silently skips the pair. -/
def rowOf {E : Type} (meta : FPath → Option Metadata) (p : FPath) (e : E) : Option (Record E) :=
  (meta p).map (fun m => ⟨p, m.len, m.modified, e⟩)

/-- `IndexerState::insert_embeddings`. `meta` is the `fs::metadata` oracle.
Bails out when the path and embedding counts differ; silently drops pairs
whose metadata read fails; returns early (without creating the table or
updating `indexed_files`) when no row survives; otherwise appends the rows
to the `images` table (creating it on first use) and marks every requested
path as indexed. -/
def insert_embeddings {E : Type} (meta : FPath → Option Metadata)
    (paths : List FPath) (embeddings : List E) (st : PipeState E) :
    Except String (PipeState E) :=
  if paths.length ≠ embeddings.length then
    .error "Mismatch between paths and embeddings count"
  else
    let rows := (paths.zip embeddings).filterMap (fun pe => rowOf meta pe.1 pe.2)
    if rows.isEmpty then .ok st
    else
      let store' : Store E :=
        match st.store with
        | some existing => some (existing ++ rows)
        | none => some rows
      .ok ⟨store', st.indexed_files ++ paths⟩

/-- Rust `slice::chunks` via a structural fuel argument (`fuel` bounds the
number of chunks; `chunks` below instantiates it with the list length,
which always suffices). -/
def chunksFuel {α : Type} (n : Nat) : Nat → List α → List (List α)
  | _, [] => []
  | 0, l => [l]
  | fuel + 1, a :: l => (a :: l.take (n - 1)) :: chunksFuel n fuel (l.drop (n - 1))

/-- Rust `slice::chunks`: partition `l` into consecutive chunks of size `n`
(the last one possibly shorter). -/
def chunks {α : Type} (n : Nat) (l : List α) : List (List α) :=
  chunksFuel n l.length l

/-- The outcome of the `index_batch` chunk loop: the mutated state, the
`indexed_count` accumulator, the `IndexProgress` events sent, and the error
that aborted the loop, if any (`index_batch` returns `Err` in that case,
with everything already sent staying sent). -/
structure BatchOutcome (E : Type) where
  state : PipeState E
  count : Nat
  events : List AppMessage
  err : Option String
deriving DecidableEq, Repr

/-- The `for (chunk_idx, chunk) in files.chunks(batch_size)` loop of
`IndexerState::index_batch`, processed over the pre-computed chunk list.
`embed` is the image-embedding oracle (`model.embed`); an embedding error
or an insert error aborts the loop immediately (`?` in the source). On
success the count grows by `min(embeddings.len(), chunk.len())` and an
`IndexProgress(count, total, first file of chunk)` event is sent. -/
def indexBatches {E : Type} (embed : List FPath → Except String (List E))
    (meta : FPath → Option Metadata) (total : Nat) :
    List (List FPath) → PipeState E → Nat → BatchOutcome E
  | [], st, cnt => ⟨st, cnt, [], none⟩
  | chunk :: rest, st, cnt =>
    if chunk.isEmpty then
      indexBatches embed meta total rest st cnt
    else
      let current_file := fileName chunk.head!
      match embed chunk with
      | .error e => ⟨st, cnt, [], some e⟩
      | .ok embeddings =>
        let num_inserted := min embeddings.length chunk.length
        match insert_embeddings meta (chunk.take num_inserted) embeddings st with
        | .error e => ⟨st, cnt, [], some e⟩
        | .ok st' =>
          let cnt' := cnt + num_inserted
          let oc := indexBatches embed meta total rest st' cnt'
          ⟨oc.state, oc.count, .IndexProgress cnt' total current_file :: oc.events, oc.err⟩

/-- Result of one `run_indexing` call: the final state and the ordered list
of messages sent on the channel. -/
structure RunOutcome (E : Type) where
  state : PipeState E
  events : List AppMessage
deriving DecidableEq, Repr

/-- `IndexerState::run_indexing`. The store at `db_path` is `store0` (the
`open_or_create_db` connection); `root` is the screenshot directory tree.
A scan failure is the `Err` of this function (surfaced by `start_indexing`
as `IndexFailed`); an error inside the batch loop is only logged, and the
run still ends with `IndexCompleted(indexed_count)`. -/
def run_indexing {E : Type} (embed : List FPath → Except String (List E))
    (meta : FPath → Option Metadata) (mode : CpuMode) (force_all : Bool)
    (root : FsNode) (store0 : Store E) : Except String (RunOutcome E) :=
  let indexed := if force_all then [] else load_indexed_files store0
  let st0 : PipeState E := ⟨store0, indexed⟩
  match collect_files_to_index force_all indexed root with
  | .error e => .error e
  | .ok files =>
    let total := files.length
    if total = 0 then .ok ⟨st0, [.IndexCompleted 0]⟩
    else
      let oc := indexBatches embed meta total (chunks mode.batch_size files) st0 0
      .ok ⟨oc.state, .IndexStarted total :: oc.events ++ [.IndexCompleted oc.count]⟩

/-- The message trace of `start_indexing` once both prewarmed models are
supplied (model acquisition skipped): the `run_indexing` trace, or that
trace's prefix followed by `IndexFailed` when `run_indexing` itself errors
(in this model only a scan failure does, before any message is sent). -/
def start_indexing {E : Type} (embed : List FPath → Except String (List E))
    (meta : FPath → Option Metadata) (mode : CpuMode) (force_all : Bool)
    (root : FsNode) (store0 : Store E) : List AppMessage :=
  match run_indexing embed meta mode force_all root store0 with
  | .ok oc => oc.events
  | .error e => [.IndexFailed e]

/-- `Table::count_rows` as used by `get_indexed_count`: 0 when the `images`
table does not exist. -/
def get_indexed_count {E : Type} (store : Store E) : Nat :=
  match store with
  | none => 0
  | some rows => rows.length

/-- The inner `for i in 0..path_array.len()` loop of `search_images_impl`
over one record batch of the `file_path` column: stop once `limit` results
are collected, skip nulls, keep a path only when it still exists on disk. -/
def extractBatch (existsOnDisk : FPath → Bool) (limit : Nat) :
    List (Option FPath) → List FPath → List FPath
  | [], acc => acc
  | cell :: rest, acc =>
    if limit ≤ acc.length then acc
    else
      match cell with
      | none => extractBatch existsOnDisk limit rest acc
      | some p =>
        extractBatch existsOnDisk limit rest (if existsOnDisk p then acc ++ [p] else acc)

/-- The outer `while let Some(batch) = results.try_next()` loop of
`search_images_impl` over the stream of record batches returned by the
nearest-neighbour query. -/
def extractSearchPaths (existsOnDisk : FPath → Bool) (limit : Nat) :
    List (List (Option FPath)) → List FPath → List FPath
  | [], acc => acc
  | batch :: rest, acc =>
    let acc' := extractBatch existsOnDisk limit batch acc
    if limit ≤ acc'.length then acc'
    else extractSearchPaths existsOnDisk limit rest acc'

/-- `search_images_impl`. `embedText` is the text-model oracle on the
one-element query list; `nearest` is the store's ANN query, returning the
`file_path` column of the result stream as record batches ranked by
similarity (with possible nulls); `existsOnDisk` is `Path::exists`. -/
def search_images_impl {E : Type} (embedText : List String → Except String (List E))
    (nearest : List (Record E) → E → List (List (Option FPath)))
    (existsOnDisk : FPath → Bool) (query : String) (store : Store E) (limit : Nat) :
    Except String (List FPath) :=
  match embedText [query] with
  | .error e => .error e
  | .ok [] => .ok []
  | .ok (qv :: _) =>
    match store with
    | none => .ok []
    | some rows => .ok (extractSearchPaths existsOnDisk limit (nearest rows qv) [])

/-- The terminal message sent by `search_images`: the result list on
success, and an empty `SearchResults` when the implementation fails. -/
def search_images {E : Type} (embedText : List String → Except String (List E))
    (nearest : List (Record E) → E → List (List (Option FPath)))
    (existsOnDisk : FPath → Bool) (query : String) (store : Store E) (limit : Nat) :
    AppMessage :=
  match search_images_impl embedText nearest existsOnDisk query store limit with
  | .ok paths => .SearchResults paths
  | .error _ => .SearchResults []

/-- The column named by the delete predicate `format!("path = '{}'", path_str)`
in `remove_from_index_impl`. -/
def deleteFilterColumn : String := "path"

/-- `Table::delete` with an equality predicate `col = 'v'`. The underlying
query engine resolves `col` against the table schema: filtering on the
string key column `file_path` removes the matching rows; naming a column
that is not in the schema is rejected with an error (and a non-string
schema column cannot be compared to a string literal either). -/
def deleteWhereEq {E : Type} (col v : String) (rows : List (Record E)) :
    Except String (List (Record E)) :=
  if col = "file_path" then .ok (rows.filter (fun r => r.file_path ≠ v))
  else if col ∈ schemaColumns then .error ("cannot compare column " ++ col ++ " to a string")
  else .error ("No field named " ++ col)

/-- `remove_from_index_impl`: a no-op when the `images` table does not
exist, otherwise `table.delete("path = '<p>'")`. -/
def remove_from_index_impl {E : Type} (store : Store E) (p : FPath) :
    Except String (Store E) :=
  match store with
  | none => .ok none
  | some rows => (deleteWhereEq deleteFilterColumn p rows).map some

mutual

/-- Does the walk of this node reach a directory whose `read_dir` fails? -/
def hasUnreadableDir : FsNode → Bool
  | .file _ => false
  | .dir false _ => true
  | .dir true es => hasUnreadableDirs es

/-- Does the walk of one of these entries reach an unreadable directory? -/
def hasUnreadableDirs : List FsNode → Bool
  | [] => false
  | e :: rest => hasUnreadableDir e || hasUnreadableDirs rest

end

mutual

theorem visit_dirs_unreadable (c : Bool) (ix : List FPath) :
    (t : FsNode) → hasUnreadableDir t = true → ∃ e, visit_dirs c ix t = .error e
  | .file _, h => by simp [hasUnreadableDir] at h
  | .dir false es, _ => ⟨"read_dir failed", by simp [visit_dirs]⟩
  | .dir true es, h => by
    have h' : hasUnreadableDirs es = true := by simpa [hasUnreadableDir] using h
    simpa [visit_dirs] using visitEntries_unreadable c ix es h'

theorem visitEntries_unreadable (c : Bool) (ix : List FPath) :
    (es : List FsNode) → hasUnreadableDirs es = true → ∃ e, visitEntries c ix es = .error e
  | [], h => by simp [hasUnreadableDirs] at h
  | .file p :: rest, h => by
    have h' : hasUnreadableDirs rest = true := by
      simpa [hasUnreadableDirs, hasUnreadableDir] using h
    obtain ⟨e, he⟩ := visitEntries_unreadable c ix rest h'
    exact ⟨e, by simp [visitEntries, he]⟩
  | .dir b es2 :: rest, h => by
    rcases hd : hasUnreadableDir (.dir b es2) with _ | _
    · have h' : hasUnreadableDirs rest = true := by
        have := h
        simp [hasUnreadableDirs, hd] at this
        exact this
      obtain ⟨e, he⟩ := visitEntries_unreadable c ix rest h'
      rcases hv : visit_dirs c ix (.dir b es2) with e' | sub
      · exact ⟨e', by simp [visitEntries, hv]⟩
      · exact ⟨e, by simp [visitEntries, hv, he]⟩
    · obtain ⟨e, he⟩ := visit_dirs_unreadable c ix (.dir b es2) hd
      exact ⟨e, by simp [visitEntries, he]⟩

end

/-- C2, amended: an unreadable directory anywhere in the walk makes the
whole scan fail: `collect_files_to_index` returns an error and no file
list at all, for every `force_all` flag and indexed set. -/
theorem c2_amended_unreadable_dir_fails_whole_scan (force_all : Bool)
    (ix : List FPath) (t : FsNode) (h : hasUnreadableDir t = true) :
    ∃ e, collect_files_to_index force_all ix t = .error e :=
  visit_dirs_unreadable (!force_all) ix t h

/-- Witness for `c2_amended_unreadable_dir_fails_whole_scan` at a concrete
tree whose only subdirectory is unreadable. -/
theorem c2_amended_witness :
    hasUnreadableDir (.dir true [.dir false [], .file "a.png"]) = true ∧
    ∃ e, collect_files_to_index false [] (.dir true [.dir false [], .file "a.png"]) = .error e :=
  ⟨by decide,
   c2_amended_unreadable_dir_fails_whole_scan false [] (.dir true [.dir false [], .file "a.png"])
     (by decide)⟩

/-- C2 counterexample: with a corpus root holding one unreadable
subdirectory and one qualifying image, the scan returns an error instead
of skipping the subdirectory and returning the image (which the second
conjunct shows it does return once the subdirectory is gone). -/
theorem c2_counterexample_scan_error :
    collect_files_to_index false [] (.dir true [.dir false [], .file "a.png"]) =
      .error "read_dir failed" ∧
    (∀ files, collect_files_to_index false [] (.dir true [.dir false [], .file "a.png"]) ≠
      .ok files) ∧
    collect_files_to_index false [] (.dir true [.file "a.png"]) = .ok ["a.png"] := by
  refine ⟨by decide, ?_, by decide⟩
  intro files hc
  rw [show collect_files_to_index false [] (.dir true [.dir false [], .file "a.png"]) =
    .error "read_dir failed" from by decide] at hc
  exact Except.noConfusion hc

/-- C9: when the number of supplied paths differs from the number of
supplied embeddings, `insert_embeddings` fails with the mismatch error and
never returns a successor state: the store and the in-memory indexed-files
set are left untouched. -/
theorem c9_insert_mismatch_is_error {E : Type} (meta : FPath → Option Metadata)
    (paths : List FPath) (embeddings : List E) (st : PipeState E)
    (h : paths.length ≠ embeddings.length) :
    insert_embeddings meta paths embeddings st =
      .error "Mismatch between paths and embeddings count" ∧
    ∀ st2, insert_embeddings meta paths embeddings st ≠ .ok st2 := by
  have he : insert_embeddings meta paths embeddings st =
      .error "Mismatch between paths and embeddings count" := by
    simp [insert_embeddings, h]
  exact ⟨he, fun st2 hc => by rw [he] at hc; exact Except.noConfusion hc⟩

/-- Witness for `c9_insert_mismatch_is_error`: one path, no embedding. -/
theorem c9_witness :
    insert_embeddings (fun _ => some ⟨1, 0⟩) ["a.png"] ([] : List Unit) ⟨none, []⟩ =
      .error "Mismatch between paths and embeddings count" :=
  (c9_insert_mismatch_is_error (fun _ => some ⟨1, 0⟩) ["a.png"] [] ⟨none, []⟩ (by decide)).1

/-- The single row used by the C1 evidence. -/
def c1Row : Record Unit := ⟨"a.png", 1, 0, ()⟩

/-- A text-embedding oracle returning one vector per query. -/
def c1Embed : List String → Except String (List Unit) := fun qs => .ok (qs.map fun _ => ())

/-- A nearest-neighbour oracle ranking every stored row. -/
def c1Nearest : List (Record Unit) → Unit → List (List (Option FPath)) :=
  fun rows _ => [rows.map (fun r => some r.file_path)]

/-- C1: the delete predicate of `remove_from_index_impl` is
`path = '...'`, but the `images` schema has no column named `path` (the key
column is `file_path`), so the delete is rejected by the store and the row
survives: a subsequent nearest-neighbour search still returns the
supposedly deleted path. The last conjunct shows the intended predicate
column `file_path` would have deleted the row. -/
theorem c1_remove_from_index_cannot_delete :
    deleteFilterColumn ∉ schemaColumns ∧
    remove_from_index_impl (some [c1Row]) "a.png" = .error "No field named path" ∧
    search_images c1Embed c1Nearest (fun _ => true) "anything" (some [c1Row]) 100 =
      .SearchResults ["a.png"] ∧
    deleteWhereEq "file_path" "a.png" [c1Row] = .ok [] := by decide

theorem extractBatch_eq (ex : FPath → Bool) (limit : Nat) :
    ∀ (cells : List (Option FPath)) (acc : List FPath),
      extractBatch ex limit cells acc =
        acc ++ ((cells.filterMap id).filter ex).take (limit - acc.length) := by
  intro cells
  induction cells with
  | nil => intro acc; simp [extractBatch]
  | cons cell rest ih =>
    intro acc
    by_cases hl : limit ≤ acc.length
    · have hz : limit - acc.length = 0 := Nat.sub_eq_zero_of_le hl
      cases cell <;> simp [extractBatch, hl, hz]
    · cases cell with
      | none => simp [extractBatch, hl, ih]
      | some p =>
        cases hex : ex p with
        | false => simp [extractBatch, hl, ih, hex]
        | true =>
          have hlt : acc.length < limit := Nat.lt_of_not_le hl
          have harith : limit - acc.length = (limit - (acc.length + 1)) + 1 := by omega
          simp [extractBatch, hl, ih, hex, harith, List.take_succ_cons]

theorem extractSearchPaths_eq (ex : FPath → Bool) (limit : Nat) :
    ∀ (batches : List (List (Option FPath))) (acc : List FPath),
      extractSearchPaths ex limit batches acc =
        acc ++ ((batches.flatten.filterMap id).filter ex).take (limit - acc.length) := by
  intro batches
  induction batches with
  | nil => intro acc; simp [extractSearchPaths]
  | cons batch rest ih =>
    intro acc
    have hacc' := extractBatch_eq ex limit batch acc
    set fb := (batch.filterMap id).filter ex with hfb
    set fr := (rest.flatten.filterMap id).filter ex with hfr
    have hjoin : (((batch :: rest).flatten.filterMap id).filter ex) = fb ++ fr := by
      simp [hfb, hfr, List.filterMap_append]
    have hstep : extractSearchPaths ex limit (batch :: rest) acc =
        (if limit ≤ (extractBatch ex limit batch acc).length
         then extractBatch ex limit batch acc
         else extractSearchPaths ex limit rest (extractBatch ex limit batch acc)) := rfl
    have hlen : (extractBatch ex limit batch acc).length =
        acc.length + min (limit - acc.length) fb.length := by
      rw [hacc']; simp
    rw [hstep, hjoin]
    by_cases hl : limit ≤ (extractBatch ex limit batch acc).length
    · have hfb_ge : limit - acc.length ≤ fb.length := by
        rcases le_or_lt (limit - acc.length) fb.length with h | h
        · exact h
        · exfalso; omega
      have htake : (fb ++ fr).take (limit - acc.length) = fb.take (limit - acc.length) := by
        rw [List.take_append_eq_append_take]
        have hz : limit - acc.length - fb.length = 0 := by omega
        simp [hz]
      rw [if_pos hl, htake, hacc']
    · have hfb_lt : fb.length < limit - acc.length := by
        rcases le_or_lt (limit - acc.length) fb.length with h | h
        · exfalso; omega
        · exact h
      have htakefb : fb.take (limit - acc.length) = fb :=
        List.take_of_length_le (Nat.le_of_lt hfb_lt)
      rw [if_neg hl, ih, hacc']
      rw [List.take_append_eq_append_take, htakefb]
      have harith : limit - (acc ++ fb).length = limit - acc.length - fb.length := by
        simp; omega
      rw [harith, List.append_assoc]

/-- C7: a successful search returns exactly the store-ranked list filtered
to paths existing on disk, truncated at `limit`; hence every returned path
exists on disk, the store's similarity ranking order is preserved (the
result is a sublist of the ranked column), and at most `limit` paths are
returned. -/
theorem c7_search_filters_preserves_rank_and_limit {E : Type}
    (embedText : List String → Except String (List E))
    (nearest : List (Record E) → E → List (List (Option FPath)))
    (existsOnDisk : FPath → Bool) (query : String) (rows : List (Record E))
    (limit : Nat) (qv : E) (qrest : List E) (ps : List FPath)
    (hq : embedText [query] = .ok (qv :: qrest))
    (hs : search_images_impl embedText nearest existsOnDisk query (some rows) limit = .ok ps) :
    ps = (((nearest rows qv).flatten.filterMap id).filter existsOnDisk).take limit ∧
    (∀ p ∈ ps, existsOnDisk p = true) ∧
    ps.Sublist ((nearest rows qv).flatten.filterMap id) ∧
    ps.length ≤ limit := by
  have hps : ps = (((nearest rows qv).flatten.filterMap id).filter existsOnDisk).take limit := by
    have := hs
    rw [search_images_impl, hq] at this
    injection this with h
    rw [← h, extractSearchPaths_eq]
    simp
  refine ⟨hps, ?_, ?_, ?_⟩
  · intro p hp
    rw [hps] at hp
    have hp' := List.take_subset _ _ hp
    exact List.of_mem_filter hp'
  · rw [hps]
    exact ((List.take_sublist _ _).trans (List.filter_sublist _))
  · rw [hps]
    simp [List.length_take]

/-- Witness for `c7_search_filters_preserves_rank_and_limit`: a three-row
store whose middle-ranked row's file is gone from disk, limit 2. -/
theorem c7_witness :
    (∀ p ∈ ["a.png", "b.jpg"], (fun q => q ≠ "gone.png" : FPath → Bool) p = true) ∧
    ["a.png", "b.jpg"].length ≤ 2 :=
  have h := c7_search_filters_preserves_rank_and_limit
    (fun _ => .ok [()])
    (fun rows _ => [rows.map (fun r => some r.file_path)])
    (fun q => decide (q ≠ "gone.png")) "query"
    [⟨"a.png", 1, 0, ()⟩, ⟨"gone.png", 2, 0, ()⟩, ⟨"b.jpg", 3, 0, ()⟩] 2 () []
    ["a.png", "b.jpg"] rfl (by decide)
  ⟨fun p hp => by
      have := h.2.1 p (by simpa using hp)
      simpa using this,
    h.2.2.2⟩

/-- The `current` fields of the `IndexProgress` events of a trace. -/
def progressCurrents (evs : List AppMessage) : List Nat :=
  evs.filterMap (fun ev => match ev with | .IndexProgress cur _ _ => some cur | _ => none)

/-- The `total` fields of the `IndexProgress` events of a trace. -/
def progressTotals (evs : List AppMessage) : List Nat :=
  evs.filterMap (fun ev => match ev with | .IndexProgress _ t _ => some t | _ => none)

theorem indexBatches_events_shape {E : Type} (embed : List FPath → Except String (List E))
    (meta : FPath → Option Metadata) (total : Nat) :
    ∀ (cs : List (List FPath)) (st : PipeState E) (cnt : Nat),
      (∀ ev ∈ (indexBatches embed meta total cs st cnt).events,
          ∃ cur f, ev = .IndexProgress cur total f) ∧
      List.Chain' (· ≤ ·)
        (cnt :: progressCurrents (indexBatches embed meta total cs st cnt).events) := by
  intro cs
  induction cs with
  | nil =>
    intro st cnt
    exact ⟨fun ev hev => by simp [indexBatches] at hev, by simp [indexBatches, progressCurrents]⟩
  | cons chunk rest ih =>
    intro st cnt
    by_cases hch : chunk.isEmpty
    · simpa [indexBatches, hch] using ih st cnt
    · cases hemb : embed chunk with
      | error e =>
        exact ⟨fun ev hev => by simp [indexBatches, hch, hemb] at hev,
               by simp [indexBatches, hch, hemb, progressCurrents]⟩
      | ok embeddings =>
        cases hins : insert_embeddings meta
            (chunk.take (min embeddings.length chunk.length)) embeddings st with
        | error e =>
          exact ⟨fun ev hev => by simp [indexBatches, hch, hemb, hins] at hev,
                 by simp [indexBatches, hch, hemb, hins, progressCurrents]⟩
        | ok st' =>
          have ihr := ih st' (cnt + min embeddings.length chunk.length)
          constructor
          · intro ev hev
            simp only [indexBatches, hch, hemb, hins, Bool.false_eq_true, if_false,
              List.mem_cons] at hev
            rcases hev with rfl | hev
            · exact ⟨_, _, rfl⟩
            · exact ihr.1 ev hev
          · have hchain := ihr.2
            simp only [indexBatches, hch, hemb, hins, Bool.false_eq_true, if_false,
              progressCurrents, List.filterMap_cons] at hchain ⊢
            exact List.chain'_cons.mpr ⟨Nat.le_add_right _ _, hchain⟩

theorem indexBatches_err_append {E : Type} (embed : List FPath → Except String (List E))
    (meta : FPath → Option Metadata) (total : Nat) :
    ∀ (cs cs' : List (List FPath)) (st : PipeState E) (cnt : Nat),
      (indexBatches embed meta total cs st cnt).err ≠ none →
      indexBatches embed meta total (cs ++ cs') st cnt =
        indexBatches embed meta total cs st cnt := by
  intro cs
  induction cs with
  | nil => intro cs' st cnt h; simp [indexBatches] at h
  | cons chunk rest ih =>
    intro cs' st cnt h
    by_cases hch : chunk.isEmpty
    · rw [List.cons_append]
      simp only [indexBatches, hch, if_true] at h ⊢
      exact ih cs' st cnt h
    · cases hemb : embed chunk with
      | error e => simp [indexBatches, hch, hemb]
      | ok embeddings =>
        cases hins : insert_embeddings meta
            (chunk.take (min embeddings.length chunk.length)) embeddings st with
        | error e => simp [indexBatches, hch, hemb, hins]
        | ok st' =>
          simp only [indexBatches, hch, hemb, hins, Bool.false_eq_true, if_false] at h ⊢
          have hrec := ih cs' st' (cnt + min embeddings.length chunk.length) h
          simp only [List.append_eq]
          rw [hrec]

/-- C6: in a run that reaches the batch loop, every `IndexProgress` event
carries a non-decreasing `current` and the constant `total` announced by
`IndexStarted`. -/
theorem c6_progress_monotone_constant_total {E : Type}
    (embed : List FPath → Except String (List E)) (meta : FPath → Option Metadata)
    (mode : CpuMode) (force_all : Bool) (root : FsNode) (store0 : Store E)
    (oc : RunOutcome E)
    (hrun : run_indexing embed meta mode force_all root store0 = .ok oc) :
    List.Chain' (· ≤ ·) (progressCurrents oc.events) ∧
    (∀ T, AppMessage.IndexStarted T ∈ oc.events → ∀ t ∈ progressTotals oc.events, t = T) := by
  simp only [run_indexing] at hrun
  split at hrun
  · simp at hrun
  · next files heq =>
    split at hrun
    · injection hrun with hoc
      rw [← hoc]
      constructor
      · simp [progressCurrents]
      · intro T hT; simp at hT
    · injection hrun with hoc
      set ocB := indexBatches embed meta files.length (chunks mode.batch_size files)
        ⟨store0, if force_all then [] else load_indexed_files store0⟩ 0 with hocB
      have hshape := indexBatches_events_shape embed meta files.length
        (chunks mode.batch_size files)
        ⟨store0, if force_all then [] else load_indexed_files store0⟩ 0
      have hev : oc.events =
          .IndexStarted files.length :: ocB.events ++ [.IndexCompleted ocB.count] := by
        rw [← hoc]
      have hcur : progressCurrents oc.events = progressCurrents ocB.events := by
        rw [hev]; simp [progressCurrents]
      have htot : progressTotals oc.events = progressTotals ocB.events := by
        rw [hev]; simp [progressTotals]
      constructor
      · rw [hcur]
        exact hshape.2.tail
      · intro T hT t ht
        have hTeq : T = files.length := by
          rw [hev] at hT
          rcases List.mem_cons.mp hT with h | h
          · simpa using h
          · rcases List.mem_append.mp h with h | h
            · obtain ⟨cur, f, hef⟩ := hshape.1 _ h
              exact absurd hef (by simp)
            · simp at h
        rw [htot] at ht
        obtain ⟨ev, hevmem, hevt⟩ := List.mem_filterMap.mp ht
        obtain ⟨cur, f, rfl⟩ := hshape.1 ev hevmem
        simp at hevt
        omega

/-- Embedding oracle for the C6 witness run. -/
def c6Embed : List FPath → Except String (List Unit) := fun ps => .ok (ps.map fun _ => ())

/-- Metadata oracle for the C6 witness run. -/
def c6Meta : FPath → Option Metadata := fun _ => some ⟨1, 0⟩

/-- Corpus root for the C6 witness run. -/
def c6Root : FsNode := .dir true [.file "a.png", .file "b.jpg"]

/-- Witness for `c6_progress_monotone_constant_total` on a concrete
two-file run. -/
theorem c6_witness :
    List.Chain' (· ≤ ·) (progressCurrents
      [.IndexStarted 2, .IndexProgress 2 2 "a.png", .IndexCompleted 2]) ∧
    (∀ T, AppMessage.IndexStarted T ∈
        ([.IndexStarted 2, .IndexProgress 2 2 "a.png", .IndexCompleted 2] : List AppMessage) →
      ∀ t ∈ progressTotals [.IndexStarted 2, .IndexProgress 2 2 "a.png", .IndexCompleted 2],
        t = T) :=
  c6_progress_monotone_constant_total c6Embed c6Meta .Normal false c6Root none
    ⟨⟨some [⟨"a.png", 1, 0, ()⟩, ⟨"b.jpg", 1, 0, ()⟩], ["a.png", "b.jpg"]⟩,
     [.IndexStarted 2, .IndexProgress 2 2 "a.png", .IndexCompleted 2]⟩ (by decide)

/-- C3: when the batch loop fails (embedding error on some batch), the
remaining chunks of the worklist are never processed (the outcome of the
failing prefix is the outcome of the whole list), yet the run still emits
`IndexCompleted` with the count accumulated by the batches that succeeded
before the failure, and no `IndexFailed` message is ever sent. -/
theorem c3_embed_failure_aborts_rest_still_completed {E : Type}
    (embed : List FPath → Except String (List E)) (meta : FPath → Option Metadata)
    (mode : CpuMode) (force_all : Bool) (root : FsNode) (store0 : Store E)
    (files : List FPath) (st0 : PipeState E) (e : String)
    (hst0 : st0 = ⟨store0, if force_all then [] else load_indexed_files store0⟩)
    (hscan : collect_files_to_index force_all
      (if force_all then [] else load_indexed_files store0) root = .ok files)
    (hne : files ≠ [])
    (herr : (indexBatches embed meta files.length (chunks mode.batch_size files) st0 0).err =
      some e) :
    (∀ cs cs', chunks mode.batch_size files = cs ++ cs' →
        (indexBatches embed meta files.length cs st0 0).err ≠ none →
        indexBatches embed meta files.length (cs ++ cs') st0 0 =
          indexBatches embed meta files.length cs st0 0) ∧
    start_indexing embed meta mode force_all root store0 =
      .IndexStarted files.length ::
        (indexBatches embed meta files.length (chunks mode.batch_size files) st0 0).events ++
        [.IndexCompleted
          (indexBatches embed meta files.length (chunks mode.batch_size files) st0 0).count] ∧
    (∀ m, AppMessage.IndexFailed m ∉ start_indexing embed meta mode force_all root store0) := by
  have h0 : ¬files.length = 0 := by
    intro h; exact hne (List.length_eq_zero.mp h)
  have hstart : start_indexing embed meta mode force_all root store0 =
      .IndexStarted files.length ::
        (indexBatches embed meta files.length (chunks mode.batch_size files) st0 0).events ++
        [.IndexCompleted
          (indexBatches embed meta files.length (chunks mode.batch_size files) st0 0).count] := by
    rw [start_indexing, run_indexing]
    rw [hscan]
    simp only [h0, if_false, hst0]
  refine ⟨?_, hstart, ?_⟩
  · intro cs cs' _ hpref
    exact indexBatches_err_append embed meta files.length cs cs' st0 0 hpref
  · intro m hm
    rw [hstart] at hm
    have hshape := indexBatches_events_shape embed meta files.length
      (chunks mode.batch_size files) st0 0
    rcases List.mem_cons.mp hm with h | h
    · exact AppMessage.noConfusion h
    · rcases List.mem_append.mp h with h | h
      · obtain ⟨cur, f, hef⟩ := hshape.1 _ h
        exact AppMessage.noConfusion hef
      · simp at h

/-- Embedding oracle for the C3 witness run: succeeds on the first
8-element chunk, fails on anything else. -/
def c3Embed : List FPath → Except String (List Unit) :=
  fun ps => if ps.length == 8 then .ok (ps.map fun _ => ()) else .error "embed failed"

/-- Metadata oracle for the C3 witness run. -/
def c3Meta : FPath → Option Metadata := fun _ => some ⟨1, 0⟩

/-- Corpus root for the C3 witness run: nine image files, so Normal mode
chunks them into one batch of 8 (which succeeds) and one of 1 (which
fails to embed). -/
def c3Root : FsNode := .dir true
  [.file "p1.png", .file "p2.png", .file "p3.png", .file "p4.png", .file "p5.png",
   .file "p6.png", .file "p7.png", .file "p8.png", .file "p9.png"]

/-- Witness for `c3_embed_failure_aborts_rest_still_completed`: the run
whose second batch fails still ends in `IndexCompleted 8` (the count of the
successful first batch) and sends no `IndexFailed`. -/
theorem c3_witness :
    start_indexing c3Embed c3Meta .Normal false c3Root none =
      [.IndexStarted 9, .IndexProgress 8 9 "p1.png", .IndexCompleted 8] ∧
    (∀ m, AppMessage.IndexFailed m ∉ start_indexing c3Embed c3Meta .Normal false c3Root none) :=
  have h := c3_embed_failure_aborts_rest_still_completed c3Embed c3Meta .Normal false c3Root
    none ["p1.png", "p2.png", "p3.png", "p4.png", "p5.png", "p6.png", "p7.png", "p8.png", "p9.png"]
    ⟨none, []⟩ "embed failed" (by decide) (by decide) (by decide) (by decide)
  ⟨by rw [h.2.1]; decide, h.2.2⟩

/-- Embedding oracle for the C10 run: one vector per requested path. -/
def c10Embed : List FPath → Except String (List Unit) := fun ps => .ok (ps.map fun _ => ())

/-- Metadata oracle for the C10 run: every `fs::metadata` call fails (the
file disappeared between the scan and the insert). -/
def c10Meta : FPath → Option Metadata := fun _ => none

/-- Corpus root for the C10 run: a single image file. -/
def c10Root : FsNode := .dir true [.file "a.png"]

/-- C10: the running count grows by `min(embeddings returned, paths in
batch)` independently of how many rows `insert_embeddings` persisted, and
on a run where every metadata read fails the store keeps zero rows while
`IndexProgress`/`IndexCompleted` still report 1. -/
theorem c10_progress_count_ignores_dropped_rows :
    (∀ (E : Type) (embed : List FPath → Except String (List E))
        (meta : FPath → Option Metadata) (total : Nat) (chunk : List FPath)
        (rest : List (List FPath)) (st st' : PipeState E) (cnt : Nat) (embeddings : List E),
        chunk ≠ [] → embed chunk = .ok embeddings →
        insert_embeddings meta (chunk.take (min embeddings.length chunk.length)) embeddings st =
          .ok st' →
        (indexBatches embed meta total (chunk :: rest) st cnt).count =
          (indexBatches embed meta total rest st'
            (cnt + min embeddings.length chunk.length)).count) ∧
    run_indexing c10Embed c10Meta .Normal false c10Root none =
      .ok ⟨⟨none, []⟩, [.IndexStarted 1, .IndexProgress 1 1 "a.png", .IndexCompleted 1]⟩ ∧
    get_indexed_count (none : Store Unit) < 1 := by
  refine ⟨?_, by decide, by decide⟩
  intro E embed meta total chunk rest st st' cnt embeddings hne hemb hins
  have hch : chunk.isEmpty = false := by
    cases chunk with
    | nil => exact absurd rfl hne
    | cons a l => rfl
  simp [indexBatches, hch, hemb, hins]

/-- Witness for the universally quantified part of
`c10_progress_count_ignores_dropped_rows`, instantiated on the batch whose
only metadata read fails. -/
theorem c10_witness :
    (indexBatches c10Embed c10Meta 1 [["a.png"]] ⟨none, []⟩ 0).count =
      (indexBatches c10Embed c10Meta 1 [] ⟨none, []⟩ (0 + min 1 1)).count :=
  c10_progress_count_ignores_dropped_rows.1 Unit c10Embed c10Meta 1 ["a.png"] []
    ⟨none, []⟩ ⟨none, []⟩ 0 [()] (by decide) (by decide) (by decide)

/-- The row list built by one `insert_embeddings` call: the position-paired
`(path, embedding)` pairs whose metadata read succeeded, in order. -/
def insertedRows {E : Type} (meta : FPath → Option Metadata)
    (paths : List FPath) (embeddings : List E) : List (Record E) :=
  (paths.zip embeddings).filterMap (fun pe => rowOf meta pe.1 pe.2)

/-- Append a (possibly empty) row batch to the `images` table, creating the
table only when the batch is non-empty (the early return of
`insert_embeddings`). -/
def appendRows {E : Type} (store : Store E) (rows : List (Record E)) : Store E :=
  if rows.isEmpty then store else some (store.getD [] ++ rows)

theorem insert_embeddings_ok_eq {E : Type} (meta : FPath → Option Metadata)
    (ps : List FPath) (es : List E) (st : PipeState E) (h : ps.length = es.length) :
    insert_embeddings meta ps es st =
      .ok ⟨appendRows st.store (insertedRows meta ps es),
           if (insertedRows meta ps es).isEmpty then st.indexed_files
           else st.indexed_files ++ ps⟩ := by
  have hne : ¬ps.length ≠ es.length := fun hc => hc h
  by_cases hr : (insertedRows meta ps es).isEmpty
  · have hrows : insertedRows meta ps es = [] := List.isEmpty_iff.mp hr
    simp only [insert_embeddings, if_neg hne]
    rw [show (ps.zip es).filterMap (fun pe => rowOf meta pe.1 pe.2) =
      insertedRows meta ps es from rfl]
    rw [hrows]
    simp [appendRows]
  · have hrb : (insertedRows meta ps es).isEmpty = false := by
      cases hb : (insertedRows meta ps es).isEmpty
      · rfl
      · exact absurd hb hr
    simp only [insert_embeddings, if_neg hne]
    rw [show (ps.zip es).filterMap (fun pe => rowOf meta pe.1 pe.2) =
      insertedRows meta ps es from rfl]
    rw [hrb]
    simp only [Bool.false_eq_true, if_false, appendRows, hrb]
    cases hst : st.store with
    | none => simp
    | some existing => simp

theorem insertedRows_paths_of_meta_some {E : Type} (meta : FPath → Option Metadata) :
    ∀ (ps : List FPath) (es : List E), ps.length = es.length →
      (∀ p ∈ ps, (meta p).isSome = true) →
      (insertedRows meta ps es).map Record.file_path = ps := by
  intro ps
  induction ps with
  | nil => intro es h _; simp [insertedRows]
  | cons p ps ih =>
    intro es h hm
    cases es with
    | nil => simp at h
    | cons e es =>
      obtain ⟨m, hmp⟩ := Option.isSome_iff_exists.mp (hm p (List.mem_cons_self p ps))
      have hrest := ih es (by simpa using h) (fun q hq => hm q (List.mem_cons_of_mem _ hq))
      simpa [insertedRows, rowOf, hmp] using hrest

/-- Metadata oracle for the C4 counterexample: the metadata read of
"a.png" fails (the file vanished between scan and insert). -/
def c4Meta : FPath → Option Metadata := fun p => if p = "a.png" then none else some ⟨1, 0⟩

/-- C4 counterexample: a successful batch of two requested paths and two
returned embeddings inserts only one record (the metadata read of the
first path fails), so `len(inserted) = 1 ≠ 2 = len(embeddings_returned)`,
and the first inserted record's path is the second requested path. -/
theorem c4_counterexample_dropped_pair :
    insert_embeddings c4Meta ["a.png", "b.png"] [(), ()] ⟨none, []⟩ =
      .ok ⟨some [⟨"b.png", 1, 0, ()⟩], ["a.png", "b.png"]⟩ ∧
    (insertedRows c4Meta ["a.png", "b.png"] [(), ()]).length ≠
      ([(), ()] : List Unit).length ∧
    (insertedRows c4Meta ["a.png", "b.png"] [(), ()]).map Record.file_path = ["b.png"] ∧
    ("b.png" : FPath) ≠ "a.png" := by decide

/-- C4, amended: for every successful batch,
`embeddings_returned ≤ paths_requested`, and the inserted records are
exactly the position-paired pairs whose metadata read succeeded, appended
in order; when every metadata read of the batch succeeds, the inserted
paths are exactly the requested paths position by position (so
`len(inserted) = len(embeddings_returned)` and the Nth inserted path is
the Nth requested path); a failed metadata read silently drops that pair,
making the inserted count smaller. -/
theorem c4_amended_batch_pairing {E : Type} (meta : FPath → Option Metadata)
    (chunk : List FPath) (embeddings : List E) (st st' : PipeState E)
    (hok : insert_embeddings meta (chunk.take (min embeddings.length chunk.length))
      embeddings st = .ok st') :
    embeddings.length ≤ chunk.length ∧
    st'.store.getD [] = st.store.getD [] ++
      insertedRows meta (chunk.take (min embeddings.length chunk.length)) embeddings ∧
    (insertedRows meta (chunk.take (min embeddings.length chunk.length)) embeddings).length ≤
      embeddings.length ∧
    ((∀ p ∈ chunk.take (min embeddings.length chunk.length), (meta p).isSome = true) →
      (insertedRows meta (chunk.take (min embeddings.length chunk.length)) embeddings).map
        Record.file_path = chunk.take embeddings.length) := by
  have hlen : (chunk.take (min embeddings.length chunk.length)).length = embeddings.length := by
    by_contra hne
    rw [insert_embeddings, if_pos hne] at hok
    exact Except.noConfusion hok
  have hle : embeddings.length ≤ chunk.length := by
    rw [List.length_take] at hlen
    omega
  have hmin : min embeddings.length chunk.length = embeddings.length := Nat.min_eq_left hle
  refine ⟨hle, ?_, ?_, ?_⟩
  · rw [insert_embeddings_ok_eq meta _ _ st hlen] at hok
    injection hok with hok
    rw [← hok]
    simp only [appendRows]
    by_cases hr : (insertedRows meta (chunk.take (min embeddings.length chunk.length))
        embeddings).isEmpty
    · rw [if_pos hr]
      rw [List.isEmpty_iff] at hr
      rw [hr]
      simp
    · rw [if_neg hr]
      simp
  · calc (insertedRows meta (chunk.take (min embeddings.length chunk.length))
          embeddings).length
        ≤ ((chunk.take (min embeddings.length chunk.length)).zip embeddings).length :=
          List.length_filterMap_le _ _
      _ ≤ embeddings.length := by rw [List.length_zip]; omega
  · intro hmeta
    have := insertedRows_paths_of_meta_some meta
      (chunk.take (min embeddings.length chunk.length)) embeddings hlen hmeta
    rw [this, hmin]

/-- Witness for `c4_amended_batch_pairing`: a two-path batch whose
metadata reads both succeed. -/
theorem c4_amended_witness :
    (insertedRows (fun _ => some ⟨1, 0⟩) (["a.png", "b.png"].take (min 2 2))
      ([(), ()] : List Unit)).map Record.file_path = ["a.png", "b.png"].take 2 :=
  (c4_amended_batch_pairing (fun _ => some ⟨1, 0⟩) ["a.png", "b.png"] [(), ()]
    ⟨none, []⟩ ⟨some [⟨"a.png", 1, 0, ()⟩, ⟨"b.png", 1, 0, ()⟩], ["a.png", "b.png"]⟩
    (by decide)).2.2.2 (by decide)

theorem chunksFuel_flatten {α : Type} (n : Nat) :
    ∀ (fuel : Nat) (l : List α), l.length ≤ fuel → (chunksFuel n fuel l).flatten = l := by
  intro fuel
  induction fuel with
  | zero =>
    intro l hl
    cases l with
    | nil => simp [chunksFuel]
    | cons a l => simp at hl
  | succ fuel ih =>
    intro l hl
    cases l with
    | nil => simp [chunksFuel]
    | cons a l =>
      have hl' : l.length ≤ fuel := by simp at hl; omega
      have hrec := ih (l.drop (n - 1)) (by simp [List.length_drop]; omega)
      simp [chunksFuel, hrec, List.take_append_drop]

theorem chunks_flatten {α : Type} (n : Nat) (l : List α) : (chunks n l).flatten = l :=
  chunksFuel_flatten n l.length l le_rfl

theorem appendRows_append {E : Type} (store : Store E) (r1 r2 : List (Record E)) :
    appendRows (appendRows store r1) r2 = appendRows store (r1 ++ r2) := by
  cases h1 : r1.isEmpty
  · cases h2 : r2.isEmpty
    · have h12 : (r1 ++ r2).isEmpty = false := by
        cases r1 with
        | nil => simp at h1
        | cons a l => rfl
      simp [appendRows, h1, h2, h12, List.append_assoc]
    · have hr2 : r2 = [] := List.isEmpty_iff.mp h2
      subst hr2
      simp [appendRows, h1]
  · have hr1 : r1 = [] := List.isEmpty_iff.mp h1
    subst hr1
    simp [appendRows]

theorem insertedRows_map_self {E : Type} (meta : FPath → Option Metadata) (f : FPath → E) :
    ∀ ps : List FPath, insertedRows meta ps (ps.map f) =
      ps.filterMap (fun p => rowOf meta p (f p)) := by
  intro ps
  induction ps with
  | nil => simp [insertedRows]
  | cons p ps ih =>
    simp only [insertedRows, List.map_cons, List.zip_cons_cons, List.filterMap_cons] at ih ⊢
    cases rowOf meta p (f p) <;> simp [ih]

theorem indexBatches_pointwise {E : Type} (embed : List FPath → Except String (List E))
    (f : FPath → E) (meta : FPath → Option Metadata) (total : Nat)
    (hembed : ∀ ps, embed ps = .ok (ps.map f)) :
    ∀ (cs : List (List FPath)) (st : PipeState E) (cnt : Nat),
      (indexBatches embed meta total cs st cnt).state.store =
        appendRows st.store (cs.flatten.filterMap (fun p => rowOf meta p (f p))) ∧
      (indexBatches embed meta total cs st cnt).count = cnt + cs.flatten.length ∧
      (indexBatches embed meta total cs st cnt).err = none := by
  intro cs
  induction cs with
  | nil =>
    intro st cnt
    refine ⟨?_, ?_, rfl⟩ <;> simp [indexBatches, appendRows]
  | cons chunk rest ih =>
    intro st cnt
    by_cases hch : chunk.isEmpty
    · have hc : chunk = [] := List.isEmpty_iff.mp hch
      subst hc
      simpa [indexBatches] using ih st cnt
    · have hemb := hembed chunk
      have hins0 := insert_embeddings_ok_eq meta chunk (chunk.map f) st (by simp)
      set stN : PipeState E := ⟨appendRows st.store (insertedRows meta chunk (chunk.map f)),
        if (insertedRows meta chunk (chunk.map f)).isEmpty then st.indexed_files
        else st.indexed_files ++ chunk⟩ with hstN
      have ihr := ih stN (cnt + chunk.length)
      have hproj : indexBatches embed meta total (chunk :: rest) st cnt =
          ⟨(indexBatches embed meta total rest stN (cnt + chunk.length)).state,
           (indexBatches embed meta total rest stN (cnt + chunk.length)).count,
           .IndexProgress (cnt + chunk.length) total (fileName chunk.head!) ::
             (indexBatches embed meta total rest stN (cnt + chunk.length)).events,
           (indexBatches embed meta total rest stN (cnt + chunk.length)).err⟩ := by
        simp [indexBatches, hch, hemb, hins0]
      refine ⟨?_, ?_, ?_⟩
      · rw [hproj]
        show (indexBatches embed meta total rest stN (cnt + chunk.length)).state.store = _
        rw [ihr.1]
        have hstore : stN.store = appendRows st.store (insertedRows meta chunk (chunk.map f)) :=
          rfl
        rw [hstore, appendRows_append, insertedRows_map_self]
        simp [List.filterMap_append]
      · rw [hproj]
        show (indexBatches embed meta total rest stN (cnt + chunk.length)).count = _
        rw [ihr.2.1]
        simp only [List.flatten_cons, List.length_append]
        omega
      · rw [hproj]
        exact ihr.2.2

/-- C8: with a per-file embedding model, indexing the same corpus to
completion under Normal and under Fast mode yields identical final store
contents (the very same row list, namely the metadata-surviving rows of the
worklist appended to the initial table); the mode only changes the batch
size used to chunk the worklist. -/
theorem c8_mode_affects_batching_only {E : Type} (embed : List FPath → Except String (List E))
    (f : FPath → E) (meta : FPath → Option Metadata) (force_all : Bool) (root : FsNode)
    (store0 : Store E) (files : List FPath)
    (hembed : ∀ ps, embed ps = .ok (ps.map f))
    (hscan : collect_files_to_index force_all
      (if force_all then [] else load_indexed_files store0) root = .ok files) :
    ∃ ocN ocF, run_indexing embed meta .Normal force_all root store0 = .ok ocN ∧
      run_indexing embed meta .Fast force_all root store0 = .ok ocF ∧
      ocN.state.store = ocF.state.store ∧
      ocN.state.store = appendRows store0 (files.filterMap (fun p => rowOf meta p (f p))) ∧
      CpuMode.batch_size .Normal ≠ CpuMode.batch_size .Fast := by
  by_cases h0 : files.length = 0
  · have hf : files = [] := List.length_eq_zero.mp h0
    subst hf
    refine ⟨⟨⟨store0, if force_all then [] else load_indexed_files store0⟩, [.IndexCompleted 0]⟩,
            ⟨⟨store0, if force_all then [] else load_indexed_files store0⟩, [.IndexCompleted 0]⟩,
            ?_, ?_, rfl, ?_, by decide⟩
    · rw [run_indexing, hscan]
      rfl
    · rw [run_indexing, hscan]
      rfl
    · simp [appendRows]
  · have hN := indexBatches_pointwise embed f meta files.length hembed
      (chunks (CpuMode.batch_size .Normal) files)
      ⟨store0, if force_all then [] else load_indexed_files store0⟩ 0
    have hF := indexBatches_pointwise embed f meta files.length hembed
      (chunks (CpuMode.batch_size .Fast) files)
      ⟨store0, if force_all then [] else load_indexed_files store0⟩ 0
    rw [chunks_flatten] at hN hF
    refine ⟨⟨(indexBatches embed meta files.length (chunks (CpuMode.batch_size .Normal) files)
              ⟨store0, if force_all then [] else load_indexed_files store0⟩ 0).state,
             .IndexStarted files.length ::
              (indexBatches embed meta files.length (chunks (CpuMode.batch_size .Normal) files)
                ⟨store0, if force_all then [] else load_indexed_files store0⟩ 0).events ++
              [.IndexCompleted (indexBatches embed meta files.length
                (chunks (CpuMode.batch_size .Normal) files)
                ⟨store0, if force_all then [] else load_indexed_files store0⟩ 0).count]⟩,
            ⟨(indexBatches embed meta files.length (chunks (CpuMode.batch_size .Fast) files)
              ⟨store0, if force_all then [] else load_indexed_files store0⟩ 0).state,
             .IndexStarted files.length ::
              (indexBatches embed meta files.length (chunks (CpuMode.batch_size .Fast) files)
                ⟨store0, if force_all then [] else load_indexed_files store0⟩ 0).events ++
              [.IndexCompleted (indexBatches embed meta files.length
                (chunks (CpuMode.batch_size .Fast) files)
                ⟨store0, if force_all then [] else load_indexed_files store0⟩ 0).count]⟩,
            ?_, ?_, ?_, ?_, by decide⟩
    · rw [run_indexing, hscan]
      simp only [h0, if_false]
    · rw [run_indexing, hscan]
      simp only [h0, if_false]
    · show (indexBatches embed meta files.length _ _ 0).state.store =
        (indexBatches embed meta files.length _ _ 0).state.store
      rw [hN.1, hF.1]
    · exact hN.1
/-- Embedding oracle for the C8 witness: one vector per file. -/
def c8Embed : List FPath → Except String (List Unit) := fun ps => .ok (ps.map fun _ => ())

/-- Metadata oracle for the C8 witness. -/
def c8Meta : FPath → Option Metadata := fun _ => some ⟨1, 0⟩

/-- Corpus root for the C8 witness. -/
def c8Root : FsNode := .dir true [.file "a.png", .file "b.jpg"]

/-- Witness for `c8_mode_affects_batching_only` on a concrete two-file
corpus with an empty initial store. -/
theorem c8_witness :
    ∃ ocN ocF, run_indexing c8Embed c8Meta .Normal false c8Root none = .ok ocN ∧
      run_indexing c8Embed c8Meta .Fast false c8Root none = .ok ocF ∧
      ocN.state.store = ocF.state.store ∧
      ocN.state.store = appendRows none
        (["a.png", "b.jpg"].filterMap (fun p => rowOf c8Meta p ((fun _ => ()) p))) ∧
      CpuMode.batch_size .Normal ≠ CpuMode.batch_size .Fast :=
  c8_mode_affects_batching_only c8Embed (fun _ => ()) c8Meta false c8Root none
    ["a.png", "b.jpg"] (fun _ => rfl) (by decide)

mutual

theorem visit_dirs_filter (c : Bool) (ix : List FPath) :
    (t : FsNode) → visit_dirs c ix t =
      (visit_dirs false [] t).map (List.filter (fun p => !c || !(ix.contains p)))
  | .file _ => by simp [visit_dirs, Except.map]
  | .dir false es => by simp [visit_dirs, Except.map]
  | .dir true es => by
    have h := visitEntries_filter c ix es
    simpa [visit_dirs] using h

theorem visitEntries_filter (c : Bool) (ix : List FPath) :
    (es : List FsNode) → visitEntries c ix es =
      (visitEntries false [] es).map (List.filter (fun p => !c || !(ix.contains p)))
  | [] => by simp [visitEntries, Except.map]
  | .file p :: rest => by
    have h := visitEntries_filter c ix rest
    cases hrest : visitEntries false [] rest with
    | error e => simp [visitEntries, h, hrest, Except.map]
    | ok tail =>
      cases hip : isImageExt p <;> by_cases hpix : p ∈ ix <;> cases c <;>
        simp [visitEntries, h, hrest, Except.map, List.filter_append, List.filter, hip, hpix]
  | .dir b es2 :: rest => by
    have hd := visit_dirs_filter c ix (.dir b es2)
    have hr := visitEntries_filter c ix rest
    cases hsub : visit_dirs false [] (.dir b es2) with
    | error e => simp [visitEntries, hd, hsub, Except.map]
    | ok sub =>
      cases hrest : visitEntries false [] rest with
      | error e => simp [visitEntries, hd, hr, hsub, hrest, Except.map]
      | ok tail => simp [visitEntries, hd, hr, hsub, hrest, Except.map, List.filter_append]

end

theorem load_indexed_files_appendRows {E : Type} (store : Store E)
    (rows : List (Record E)) :
    load_indexed_files (appendRows store rows) =
      load_indexed_files store ++ rows.map Record.file_path := by
  cases hr : rows.isEmpty
  · cases store <;> simp [appendRows, load_indexed_files, hr]
  · have hnil : rows = [] := List.isEmpty_iff.mp hr
    subst hnil
    cases store <;> simp [appendRows, load_indexed_files]

/-- C5: if the first incremental run (`force_all = false`) completes with a
per-file embedding model and no metadata failure (a static filesystem),
then against the resulting store the second incremental scan selects zero
files: its diff against `load_indexed_files` is exactly empty, and the
second run terminates immediately with `IndexCompleted 0` and an unchanged
store. -/
theorem c5_incremental_indexing_idempotent {E : Type}
    (embed : List FPath → Except String (List E)) (f : FPath → E)
    (meta : FPath → Option Metadata) (mode : CpuMode) (root : FsNode) (store0 : Store E)
    (oc1 : RunOutcome E)
    (hembed : ∀ ps, embed ps = .ok (ps.map f))
    (hmeta : ∀ p, (meta p).isSome = true)
    (hrun1 : run_indexing embed meta mode false root store0 = .ok oc1) :
    collect_files_to_index false (load_indexed_files oc1.state.store) root = .ok [] ∧
    run_indexing embed meta mode false root oc1.state.store =
      .ok ⟨⟨oc1.state.store, load_indexed_files oc1.state.store⟩, [.IndexCompleted 0]⟩ := by
  simp only [run_indexing, Bool.false_eq_true, if_false] at hrun1
  split at hrun1
  · simp at hrun1
  · next files heq =>
    have hmap : (visit_dirs false [] root).map
        (List.filter (fun p => !true || !((load_indexed_files store0).contains p))) =
        .ok files := by
      rw [← visit_dirs_filter true (load_indexed_files store0) root]
      exact heq
    cases hall : visit_dirs false [] root with
    | error e => rw [hall] at hmap; simp [Except.map] at hmap
    | ok all =>
      rw [hall] at hmap
      simp only [Except.map, Except.ok.injEq] at hmap
      have hfiles : files = all.filter
          (fun p => !((load_indexed_files store0).contains p)) := by
        rw [← hmap]
        simp
      split at hrun1
      · next h0 =>
        have hf : files = [] := List.length_eq_zero.mp h0
        injection hrun1 with hoc
        have hstore : oc1.state.store = store0 := by rw [← hoc]
        have hcoll : collect_files_to_index false
            (load_indexed_files oc1.state.store) root = .ok [] := by
          rw [hstore]
          show visit_dirs true (load_indexed_files store0) root = .ok []
          rw [show Except.ok ([] : List FPath) = Except.ok files by rw [hf]]
          exact heq
        refine ⟨hcoll, ?_⟩
        rw [run_indexing]
        simp only [Bool.false_eq_true, if_false]
        rw [hcoll]
        rw [hstore]
        rfl
      · next h0 =>
        injection hrun1 with hoc
        have hpw := indexBatches_pointwise embed f meta files.length hembed
          (chunks mode.batch_size files) ⟨store0, load_indexed_files store0⟩ 0
        rw [chunks_flatten] at hpw
        have hstore : oc1.state.store =
            appendRows store0 (files.filterMap (fun p => rowOf meta p (f p))) := by
          rw [← hoc]
          exact hpw.1
        have hrowpaths : (files.filterMap (fun p => rowOf meta p (f p))).map
            Record.file_path = files := by
          rw [← insertedRows_map_self meta f files]
          exact insertedRows_paths_of_meta_some meta files (files.map f) (by simp)
            (fun p _ => hmeta p)
        have hix2 : load_indexed_files oc1.state.store =
            load_indexed_files store0 ++ files := by
          rw [hstore, load_indexed_files_appendRows, hrowpaths]
        have hfilter2 : all.filter
            (fun p => !((load_indexed_files oc1.state.store).contains p)) = [] := by
          apply List.filter_eq_nil_iff.mpr
          intro p hp
          have hmem : p ∈ load_indexed_files oc1.state.store := by
            rw [hix2]
            cases hcont : (load_indexed_files store0).contains p with
            | false =>
              refine List.mem_append.mpr (Or.inr ?_)
              rw [hfiles]
              exact List.mem_filter.mpr ⟨hp, by simpa using hcont⟩
            | true =>
              refine List.mem_append.mpr (Or.inl ?_)
              simpa using hcont
          simp [hmem]
        have hcoll : collect_files_to_index false
            (load_indexed_files oc1.state.store) root = .ok [] := by
          show visit_dirs true (load_indexed_files oc1.state.store) root = .ok []
          rw [visit_dirs_filter true (load_indexed_files oc1.state.store) root, hall]
          simp only [Except.map, Except.ok.injEq]
          rw [← hfilter2]
          simp
        refine ⟨hcoll, ?_⟩
        rw [run_indexing]
        simp only [Bool.false_eq_true, if_false]
        rw [hcoll]
        rfl

/-- Witness for `c5_incremental_indexing_idempotent`: a one-file corpus
indexed from an empty store. -/
theorem c5_witness :
    collect_files_to_index false
      (load_indexed_files (some [(⟨"a.png", 1, 0, ()⟩ : Record Unit)])) c10Root = .ok [] ∧
    run_indexing c8Embed c8Meta .Normal false c10Root
        (some [(⟨"a.png", 1, 0, ()⟩ : Record Unit)]) =
      .ok ⟨⟨some [⟨"a.png", 1, 0, ()⟩],
            load_indexed_files (some [(⟨"a.png", 1, 0, ()⟩ : Record Unit)])⟩,
           [.IndexCompleted 0]⟩ :=
  c5_incremental_indexing_idempotent c8Embed (fun _ => ()) c8Meta .Normal c10Root none
    ⟨⟨some [⟨"a.png", 1, 0, ()⟩], ["a.png"]⟩,
     [.IndexStarted 1, .IndexProgress 1 1 "a.png", .IndexCompleted 1]⟩
    (fun _ => rfl) (fun _ => rfl) (by decide)

end Traybin
